import Mathlib

/-!
Verification of core numeric components of the dreamerv3 repository
(`dreamerv3/agent.py`, `dreamerv3/jaxutils.py`) against its specification.
Tensor code is embedded shallowly: per-element float arithmetic is modelled
over `ℚ` (or `ℝ` where transcendental functions appear), stacked arrays over
time become `List`s, and non-finite float values are modelled with `Option`.
-/

/-- List helper: `headD` agrees with `getD 0`. -/
theorem headD_eq_getD {α : Type} (l : List α) (d : α) : l.headD d = l.getD 0 d := by
  cases l <;> rfl

/-- List helper: `getD` after dropping one element shifts the index. -/
theorem getD_drop_one {α : Type} (l : List α) (t : ℕ) (d : α) :
    (l.drop 1).getD t d = l.getD (t + 1) d := by
  cases l <;> rfl

/-- List helper: `getD` of a mapped list, at an in-bounds index. -/
theorem getD_map_lt {α β : Type} (f : α → β) (l : List α) (t : ℕ) (ht : t < l.length)
    (d : α) (d2 : β) : (l.map f).getD t d2 = f (l.getD t d) := by
  induction l generalizing t with
  | nil => simp at ht
  | cons x xs ih =>
    cases t with
    | zero => rfl
    | succ n =>
      simp only [List.map_cons, List.getD_cons_succ]
      exact ih n (by simpa using ht)

/-- List helper: `getD` of a zipped pair of lists, at an index in bounds of both. -/
theorem getD_zip_lt {α β : Type} (l1 : List α) (l2 : List β) (t : ℕ)
    (h1 : t < l1.length) (h2 : t < l2.length) (d1 : α) (d2 : β) :
    (l1.zip l2).getD t (d1, d2) = (l1.getD t d1, l2.getD t d2) := by
  induction l1 generalizing l2 t with
  | nil => simp at h1
  | cons x xs ih =>
    cases l2 with
    | nil => simp at h2
    | cons y ys =>
      cases t with
      | zero => rfl
      | succ n =>
        simp only [List.zip_cons_cons, List.getD_cons_succ]
        exact ih ys n (by simpa using h1) (by simpa using h2)

/-- List helper: `getD` of `zipWith`, at an index in bounds of both lists. -/
theorem getD_zipWith_lt {α β γ : Type} (f : α → β → γ) (l1 : List α) (l2 : List β) (t : ℕ)
    (h1 : t < l1.length) (h2 : t < l2.length) (d1 : α) (d2 : β) (d3 : γ) :
    (List.zipWith f l1 l2).getD t d3 = f (l1.getD t d1) (l2.getD t d2) := by
  induction l1 generalizing l2 t with
  | nil => simp at h1
  | cons x xs ih =>
    cases l2 with
    | nil => simp at h2
    | cons y ys =>
      cases t with
      | zero => rfl
      | succ n =>
        simp only [List.zipWith_cons_cons, List.getD_cons_succ]
        exact ih ys n (by simpa using h1) (by simpa using h2)

/-- Embeds the backward loop of `VFunction.score` (dreamerv3/agent.py): starting
from the terminal value as base, each step prepends
`interm[t] + disc[t] * lambda * previous`, where `previous` is the next return
(or the base at the last step).  The input pairs are `(interm[t], disc[t])`. -/
def lamRec (lam base : ℚ) : List (ℚ × ℚ) → List ℚ
  | [] => []
  | p :: rest =>
    let tail := lamRec lam base rest
    (p.1 + p.2 * lam * tail.headD base) :: tail

/-- Embeds `VFunction.score` (dreamerv3/agent.py): the bootstrapped λ-return
over an imagined trajectory, with `disc = cont[1:] * (1 - 1/horizon)`,
`interm = rew + disc * value[1:] * (1 - lambda)`, and a backward recursion
seeded with the last critic value. -/
def score (horizon lam : ℚ) (rew cont value : List ℚ) : List ℚ :=
  let discount := 1 - 1 / horizon
  let disc := (cont.drop 1).map (fun c => c * discount)
  let interm := List.zipWith (fun r dv => r + dv.1 * dv.2 * (1 - lam)) rew (disc.zip (value.drop 1))
  lamRec lam (value.getLastD 0) (interm.zip disc)

/-- Dual number for forward-mode differentiation: a value together with its
derivative with respect to the distribution parameters. -/
structure Dual where
  val : ℚ
  grad : ℚ
deriving DecidableEq

/-- Embeds `jax.lax.stop_gradient` (the `sg` helper in dreamerv3/jaxutils.py)
on dual numbers: the forward value passes through, the derivative is cut. -/
def dsg (x : Dual) : Dual := ⟨x.val, 0⟩

/-- Pointwise addition of dual numbers. -/
def dadd (x y : Dual) : Dual := ⟨x.val + y.val, x.grad + y.grad⟩

/-- Pointwise subtraction of dual numbers. -/
def dsub (x y : Dual) : Dual := ⟨x.val - y.val, x.grad - y.grad⟩

/-- Embeds `OneHotDist.sample` (dreamerv3/jaxutils.py): the hard one-hot
sample of the base categorical distribution is stop-gradiented, and
`probs - sg(probs)` is added, so `sample = sg(hard) + (probs - sg(probs))`.
`hard` is the one-hot sample and `probs` the (padded) probability vector,
both as per-component dual numbers. -/
def oneHotSample (hard probs : List Dual) : List Dual :=
  let sample := hard.map dsg
  List.zipWith (fun s p => dadd (dsg s) (dsub p (dsg p))) sample probs

/-- Embeds `symlog` (dreamerv3/jaxutils.py): `sign(x) * log(1 + |x|)`. -/
noncomputable def symlog (x : ℝ) : ℝ := Real.sign x * Real.log (1 + |x|)

/-- Embeds `symexp` (dreamerv3/jaxutils.py): `sign(x) * (exp(|x|) - 1)`. -/
noncomputable def symexp (x : ℝ) : ℝ := Real.sign x * (Real.exp |x| - 1)

/-- Boolean cast to a rational, embedding `astype` casts of jax booleans. -/
def b2q (b : Bool) : ℚ := if b then 1 else 0

/-- Embeds `jnp.clip(x, lo, hi)`, i.e. `minimum(hi, maximum(x, lo))`. -/
def qclip (x lo hi : ℚ) : ℚ := min (max x lo) hi

/-- Embeds the all-finite test of `Optimizer._update_scale`
(dreamerv3/jaxutils.py): gradient elements are modelled as `Option ℚ` with
`none` standing for a non-finite float (NaN or infinity). -/
def allFinite (grads : List (Option ℚ)) : Bool := grads.all Option.isSome

/-- State of the mixed-precision loss scaling owned by `Optimizer`
(dreamerv3/jaxutils.py): the consecutive-good-step counter `good_steps` and
the loss scale `grad_scale`. -/
structure ScaleState where
  goodSteps : ℤ
  gradScale : ℚ
deriving DecidableEq

/-- Embeds `Optimizer._update_scale` (dreamerv3/jaxutils.py): computes
`keep`, `incr` and `decr` from finiteness and the good-step counter, writes
the new counter `keep * (good_steps + 1)` and the new scale
`clip(keep * scale + incr * scale * 2 + decr * scale / 2, 1e-4, 1e4)`,
and returns the `finite` flag. -/
def updateScale (grads : List (Option ℚ)) (s : ScaleState) : ScaleState × Bool :=
  let finite := allFinite grads
  let keep := finite && decide (s.goodSteps < 1000)
  let incr := finite && decide (1000 ≤ s.goodSteps)
  let decr := !finite
  ({ goodSteps := (if keep then (1 : ℤ) else 0) * (s.goodSteps + 1),
     gradScale := qclip (b2q keep * s.gradScale + b2q incr * (s.gradScale * 2) +
       b2q decr * (s.gradScale / 2)) (1 / 10000) 10000 }, finite)

/-- Modelled from the spec: `optax.apply_if_finite` (optimizer-library code
not under src/), which applies the inner update only when no non-finite value
occurred and otherwise leaves the parameters unchanged — per the spec, "skip
the parameter update ... when gradients are non-finite". -/
def applyIfFinite (finite : Bool) (params updates : List ℚ) : List ℚ :=
  if finite then List.zipWith (fun p u => p + u) params updates else params

/-- Embeds the step-counter update at the end of `Optimizer.__call__`
(dreamerv3/jaxutils.py): the global gradient norm is non-finite exactly when
some gradient element is (under scaling it is additionally replaced by NaN),
and the step counter advances by `isfinite(norm).astype(int32)`. -/
def stepAfterCall (grads : List (Option ℚ)) (step : ℤ) : ℤ :=
  step + (if allFinite grads then 1 else 0)

/-- Embeds `polyak_averaging` (dreamerv3/jaxutils.py) on ordinary parameter
trees: `dst[k] = mix * src[k] + (1 - mix) * dst[k]` per element. -/
def polyakAveraging (src dst : List ℚ) (mix : ℚ) : List ℚ :=
  List.zipWith (fun s d => mix * s + (1 - mix) * d) src dst

/-- Embeds the mixing factor of `SlowUpdater.__call__` (dreamerv3/jaxutils.py):
`clip(1.0 * (updates == 0) + fraction * (updates % period == 0), 0, 1)`. -/
def slowMix (fraction : ℚ) (period updates : ℕ) : ℚ :=
  qclip (1 * b2q (updates == 0) + fraction * b2q (updates % period == 0)) 0 1

/-- Embeds `SlowUpdater.__call__` (dreamerv3/jaxutils.py): polyak-average the
source parameters into the destination with the computed mix, and advance the
update counter by one. -/
def slowUpdate (fraction : ℚ) (period updates : ℕ) (src dst : List ℚ) :
    List ℚ × ℕ :=
  (polyakAveraging src dst (slowMix fraction period updates), updates + 1)

/-- The hard-coded parameter path frozen early in training by
`Optimizer.__call__` (dreamerv3/jaxutils.py). -/
def protoKey : String := "agent/wm/rssm/prototypes"

/-- Embeds the prototype-freezing carve-out of `Optimizer.__call__`
(dreamerv3/jaxutils.py): when the gradient dictionary contains `protoKey`,
that entry is multiplied by zero if the step counter is below the freeze
threshold and passed through otherwise; all other entries are untouched. -/
def freezeProtos (step freeze : ℤ) (grads : List (String × ℚ)) :
    List (String × ℚ) :=
  if protoKey ∈ grads.map Prod.fst then
    grads.map (fun kv =>
      if kv.1 = protoKey then (kv.1, if step < freeze then kv.2 * 0 else kv.2) else kv)
  else grads

/-- Modelled from the spec: `nj.scan` (module `ninjax`, not under src/) — the
lazy, strictly sequential scan equivalent to `jax.lax.scan`: it threads the
carry through the step function and returns the final carry together with the
stacked per-step outputs. -/
def njScan {C O I : Type} (fn : C → I → C × O) (carry : C) : List I → C × List O
  | [] => (carry, [])
  | i :: is =>
    let co := fn carry i
    let rest := njScan fn co.1 is
    (rest.1, co.2 :: rest.2)

/-- Embeds the eager branch of `jaxutils.scan` (dreamerv3/jaxutils.py,
`unroll=True`): a Python loop feeding the carry forward and stacking the
output of every step. -/
def scanUnrolled {C I : Type} (fn : C → I → C) (carry : C) : List I → List C
  | [] => []
  | i :: is =>
    let c := fn carry i
    c :: scanUnrolled fn c is

/-- Embeds `jaxutils.scan` (dreamerv3/jaxutils.py): the step function is
duplicated into carry and output (`fn2 = lambda carry, inp: (fn(carry, inp),) * 2`);
with `unroll=True` an eager Python loop stacks the outputs, otherwise the
stacked outputs of `nj.scan` are returned. -/
def scan {C I : Type} (fn : C → I → C) (inputs : List I) (start : C)
    (unroll : Bool) : List C :=
  if unroll then scanUnrolled fn start inputs
  else (njScan (fun carry inp => (fn carry inp, fn carry inp)) start inputs).2

/-- Cumulative product along the time axis, embedding `jnp.cumprod(xs, 0)`. -/
def cumprod : List ℚ → List ℚ
  | [] => []
  | x :: xs => x :: (cumprod xs).map (fun y => x * y)

/-- The imagined trajectory produced by `WorldModel.imagine`
(dreamerv3/agent.py): latent states with the action attached, the
continuation signal, and the discounted survival weights. -/
structure ImagTraj (S A : Type) where
  states : List (S × A)
  cont : List ℚ
  weight : List ℚ

/-- Embeds `WorldModel.imagine` (dreamerv3/agent.py): rolls the prior
dynamics `img_step` and the policy forward `horizon` steps from the real
start (whose action the policy picks), prepends the start, computes the
continuation signal from the mode of the `cont` head with the first entry
replaced by `1 - is_terminal` of the real start, and the survival weight
`cumprod(discount * cont, 0) / discount`, `discount = 1 - 1/horizonCfg`
(`horizonCfg` being the configured return horizon `config.horizon`). -/
def imagine {S A : Type} (img_step : S → A → S) (policy : S → A)
    (contMode : S → ℚ) (isTerminal : ℚ) (start0 : S) (horizon : ℕ)
    (horizonCfg : ℚ) (unroll : Bool) : ImagTraj S A :=
  let firstCont := 1 - isTerminal
  let start : S × A := (start0, policy start0)
  let step := fun (prev : S × A) (_ : ℕ) =>
    let state := img_step prev.1 prev.2
    (state, policy state)
  let traj := start :: scan step (List.range horizon) start unroll
  let contHead := traj.map (fun p => contMode p.1)
  let cont := firstCont :: contHead.drop 1
  let discount := 1 - 1 / horizonCfg
  let weight :=
    (cumprod (cont.map (fun c => discount * c))).map (fun w => w / discount)
  { states := traj, cont := cont, weight := weight }

/-- The normalization-statistics implementations of `Moments`
(dreamerv3/jaxutils.py). -/
inductive MomentsImpl
  | off
  | mean_std
  | min_max
  | perc_ema
  | perc_ema_corr
  | mean_mag
  | max_mag
deriving DecidableEq

/-- Internal state of a `Moments` instance (dreamerv3/jaxutils.py): the update
counter and the running statistics; each implementation reads its own
fields. -/
structure MomentsState where
  step : ℕ
  mean : ℝ
  sqrs : ℝ
  low : ℝ
  high : ℝ
  mag : ℝ

/-- Embeds `Moments.stats` (dreamerv3/jaxutils.py): the `(offset, invscale)`
pair returned by each implementation; `maxv` is the constructor argument
`max` and `eps` the variance regularizer added under the square root. -/
noncomputable def momentsStats (impl : MomentsImpl) (decay maxv eps : ℝ)
    (s : MomentsState) : ℝ × ℝ :=
  match impl with
  | .off => (0, 1)
  | .mean_std =>
    let corr := 1 - decay ^ s.step
    let mean := s.mean / corr
    let var := s.sqrs / corr - s.mean ^ 2
    (mean, Real.sqrt (max var (1 / maxv ^ 2) + eps))
  | .min_max => (s.low, max (1 / maxv) (s.high - s.low))
  | .perc_ema => (s.low, max (1 / maxv) (s.high - s.low))
  | .perc_ema_corr =>
    let corr := 1 - decay ^ s.step
    let lo := s.low / corr
    let hi := s.high / corr
    (lo, max (1 / maxv) (hi - lo))
  | .mean_mag => (0, max (1 / maxv) s.mag)
  | .max_mag => (0, max (1 / maxv) s.mag)

theorem lamRec_length (lam base : ℚ) (ps : List (ℚ × ℚ)) :
    (lamRec lam base ps).length = ps.length := by
  induction ps with
  | nil => rfl
  | cons p rest ih => simp [lamRec, ih]

/-- The backward recursion satisfied by `lamRec`: element `t` equals
`interm[t] + disc[t] * lam * next`, where `next` is element `t+1` or the base. -/
theorem lamRec_getD (lam base : ℚ) (ps : List (ℚ × ℚ)) (t : ℕ) (ht : t < ps.length) :
    (lamRec lam base ps).getD t 0 =
      (ps.getD t (0, 0)).1 + (ps.getD t (0, 0)).2 * lam *
        (lamRec lam base ps).getD (t + 1) base := by
  induction ps generalizing t with
  | nil => simp at ht
  | cons p rest ih =>
    cases t with
    | zero =>
      simp only [lamRec, List.getD_cons_zero, List.getD_cons_succ]
      rw [headD_eq_getD]
    | succ n =>
      simp only [lamRec, List.getD_cons_succ]
      exact ih n (by simpa using ht)

/-- C1: `VFunction.score` returns a return sequence of length `H` satisfying the
backward recursion `ret[t] = rew[t] + disc[t] * ((1-λ)·value[t+1] + λ·ret[t+1])`
with base case `ret[H] = value[H]` (the terminal value, used as the default of
`getD` at index `H`) and `disc[t] = cont[t+1] * (1 - 1/horizon)`; and on a
length-3 trajectory with constant reward `r`, continuation `c` and value `v`
the returns are the closed-form geometric sums in `q = c * γ * λ`. -/
theorem score_lambda_return (horizon lam : ℚ) (rew cont value : List ℚ) (H : ℕ)
    (hrew : rew.length = H) (hcont : cont.length = H + 1) (hvalue : value.length = H + 1) :
    (score horizon lam rew cont value).length = H ∧
    (∀ t, t < H →
      (score horizon lam rew cont value).getD t 0 =
        rew.getD t 0 + (cont.getD (t + 1) 0 * (1 - 1 / horizon)) *
          ((1 - lam) * value.getD (t + 1) 0 +
            lam * (score horizon lam rew cont value).getD (t + 1) (value.getLastD 0))) ∧
    (∀ r c v : ℚ,
      score horizon lam [r, r, r] [c, c, c, c] [v, v, v, v] =
        [(r + c * (1 - 1 / horizon) * v * (1 - lam)) *
            (1 + c * (1 - 1 / horizon) * lam + (c * (1 - 1 / horizon) * lam) ^ 2) +
            (c * (1 - 1 / horizon) * lam) ^ 3 * v,
         (r + c * (1 - 1 / horizon) * v * (1 - lam)) * (1 + c * (1 - 1 / horizon) * lam) +
            (c * (1 - 1 / horizon) * lam) ^ 2 * v,
         (r + c * (1 - 1 / horizon) * v * (1 - lam)) + (c * (1 - 1 / horizon) * lam) * v]) := by
  have hdisc : ((cont.drop 1).map (fun c => c * (1 - 1 / horizon))).length = H := by
    simp only [List.length_map, List.length_drop, hcont]; omega
  have hval1 : (value.drop 1).length = H := by
    simp only [List.length_drop, hvalue]; omega
  have hinterm :
      (List.zipWith (fun r dv => r + dv.1 * dv.2 * (1 - lam)) rew
        (((cont.drop 1).map (fun c => c * (1 - 1 / horizon))).zip (value.drop 1))).length = H := by
    simp only [List.length_zipWith, List.length_zip, hrew, hdisc, hval1]; omega
  have hpairs :
      ((List.zipWith (fun r dv => r + dv.1 * dv.2 * (1 - lam)) rew
        (((cont.drop 1).map (fun c => c * (1 - 1 / horizon))).zip (value.drop 1))).zip
          ((cont.drop 1).map (fun c => c * (1 - 1 / horizon)))).length = H := by
    simp only [List.length_zip, hinterm, hdisc]; omega
  have hscore : score horizon lam rew cont value =
      lamRec lam (value.getLastD 0)
        ((List.zipWith (fun r dv => r + dv.1 * dv.2 * (1 - lam)) rew
          (((cont.drop 1).map (fun c => c * (1 - 1 / horizon))).zip (value.drop 1))).zip
            ((cont.drop 1).map (fun c => c * (1 - 1 / horizon)))) := rfl
  refine ⟨?_, ?_, ?_⟩
  · rw [hscore, lamRec_length, hpairs]
  · intro t ht
    rw [hscore]
    rw [lamRec_getD _ _ _ t (by rw [hpairs]; exact ht)]
    rw [getD_zip_lt _ _ t (by rw [hinterm]; exact ht) (by rw [hdisc]; exact ht) 0 0]
    rw [getD_zipWith_lt _ _ _ t (by rw [hrew]; exact ht)
      (by simp only [List.length_zip, hdisc, hval1]; omega) 0 ((0 : ℚ), (0 : ℚ)) 0]
    rw [getD_zip_lt _ _ t (by rw [hdisc]; exact ht) (by rw [hval1]; exact ht) 0 0]
    rw [getD_map_lt _ _ t (by simp only [List.length_drop, hcont]; omega) 0 0]
    rw [getD_drop_one, getD_drop_one]
    ring
  · intro r c v
    have hlast : ([v, v, v, v] : List ℚ).getLastD 0 = v := rfl
    show lamRec lam (([v, v, v, v] : List ℚ).getLastD 0) _ = _
    rw [hlast]
    simp only [List.drop, List.map, List.zip, List.zipWith, lamRec, List.headD]
    simp only [List.cons.injEq]
    exact ⟨by ring, by ring, trivial⟩

/-- Witness for C1: the λ-return recursion instantiated at a concrete
length-2 trajectory. -/
theorem score_lambda_return_witness :
    (score 2 (1/2) [1, 2] [1, 1, 1] [3, 4, 5]).length = 2 ∧
    (score 2 (1/2) [1, 2] [1, 1, 1] [3, 4, 5]).getD 0 0 =
      ([1, 2] : List ℚ).getD 0 0 + (([1, 1, 1] : List ℚ).getD 1 0 * (1 - 1 / 2)) *
        ((1 - 1/2) * ([3, 4, 5] : List ℚ).getD 1 0 +
          (1/2) * (score 2 (1/2) [1, 2] [1, 1, 1] [3, 4, 5]).getD 1
            (([3, 4, 5] : List ℚ).getLastD 0)) := by
  have h := score_lambda_return 2 (1/2) [1, 2] [1, 1, 1] [3, 4, 5] 2 rfl rfl rfl
  exact ⟨h.1, h.2.1 0 (by norm_num)⟩

/-- C2: the straight-through property of `OneHotDist.sample`: the forward
value of the returned sample equals the hard categorical one-hot sample
exactly, while the derivative of the returned value with respect to the
distribution parameters equals the derivative through the probabilities. -/
theorem oneHotSample_straight_through (hard probs : List Dual)
    (h : hard.length = probs.length) :
    (oneHotSample hard probs).map Dual.val = hard.map Dual.val ∧
    (oneHotSample hard probs).map Dual.grad = probs.map Dual.grad := by
  induction hard generalizing probs with
  | nil =>
    cases probs with
    | nil => exact ⟨rfl, rfl⟩
    | cons y ys => simp at h
  | cons x xs ih =>
    cases probs with
    | nil => simp at h
    | cons y ys =>
      have h2 := ih ys (by simpa using h)
      constructor
      · show (dadd (dsg (dsg x)) (dsub y (dsg y))).val :: (oneHotSample xs ys).map Dual.val
            = x.val :: xs.map Dual.val
        rw [h2.1]
        simp [dadd, dsg, dsub]
      · show (dadd (dsg (dsg x)) (dsub y (dsg y))).grad :: (oneHotSample xs ys).map Dual.grad
            = y.grad :: ys.map Dual.grad
        rw [h2.2]
        simp [dadd, dsg, dsub]

/-- Witness for C2 at a concrete hard sample and probability vector. -/
theorem oneHotSample_straight_through_witness :
    (oneHotSample [⟨1, 0⟩, ⟨0, 0⟩] [⟨3/4, 2⟩, ⟨1/4, -2⟩]).map Dual.val =
      ([⟨1, 0⟩, ⟨0, 0⟩] : List Dual).map Dual.val ∧
    (oneHotSample [⟨1, 0⟩, ⟨0, 0⟩] [⟨3/4, 2⟩, ⟨1/4, -2⟩]).map Dual.grad =
      ([⟨3/4, 2⟩, ⟨1/4, -2⟩] : List Dual).map Dual.grad :=
  oneHotSample_straight_through [⟨1, 0⟩, ⟨0, 0⟩] [⟨3/4, 2⟩, ⟨1/4, -2⟩] rfl

theorem symexp_symlog (x : ℝ) : symexp (symlog x) = x := by
  rcases lt_trichotomy x 0 with hx | hx | hx
  · have h1 : 1 < 1 + |x| := by
      have := abs_pos.mpr (ne_of_lt hx)
      linarith
    have hlog : 0 < Real.log (1 + |x|) := Real.log_pos h1
    have hsl : symlog x = -Real.log (1 + |x|) := by
      rw [symlog, Real.sign_of_neg hx]; ring
    rw [symexp, hsl]
    have hneg : -Real.log (1 + |x|) < 0 := by linarith
    rw [Real.sign_of_neg hneg, abs_of_neg hneg, neg_neg,
      Real.exp_log (by linarith : (0:ℝ) < 1 + |x|), abs_of_neg hx]
    ring
  · simp [hx, symlog, symexp, Real.sign_zero]
  · have h1 : 1 < 1 + |x| := by
      have := abs_pos.mpr (ne_of_gt hx)
      linarith
    have hlog : 0 < Real.log (1 + |x|) := Real.log_pos h1
    have hsl : symlog x = Real.log (1 + |x|) := by
      rw [symlog, Real.sign_of_pos hx]; ring
    rw [symexp, hsl, Real.sign_of_pos hlog, abs_of_pos hlog,
      Real.exp_log (by linarith : (0:ℝ) < 1 + |x|), abs_of_pos hx]
    ring

theorem symlog_symexp (x : ℝ) : symlog (symexp x) = x := by
  rcases lt_trichotomy x 0 with hx | hx | hx
  · have hexp : 1 < Real.exp |x| := by
      rw [abs_of_neg hx]
      exact Real.one_lt_exp_iff.mpr (by linarith)
    have hse : symexp x = -(Real.exp |x| - 1) := by
      rw [symexp, Real.sign_of_neg hx]; ring
    have hneg : symexp x < 0 := by rw [hse]; linarith
    rw [symlog, Real.sign_of_neg hneg, hse, abs_of_neg (by linarith : -(Real.exp |x| - 1) < 0)]
    rw [neg_neg, show (1 : ℝ) + (Real.exp |x| - 1) = Real.exp |x| by ring,
      Real.log_exp, abs_of_neg hx]
    ring
  · simp [hx, symexp, symlog, Real.sign_zero]
  · have hexp : 1 < Real.exp |x| := by
      rw [abs_of_pos hx]
      exact Real.one_lt_exp_iff.mpr (by linarith)
    have hse : symexp x = Real.exp |x| - 1 := by
      rw [symexp, Real.sign_of_pos hx]; ring
    have hpos : 0 < symexp x := by rw [hse]; linarith
    rw [symlog, Real.sign_of_pos hpos, hse, abs_of_pos (by linarith : (0:ℝ) < Real.exp |x| - 1)]
    rw [show (1 : ℝ) + (Real.exp |x| - 1) = Real.exp |x| by ring,
      Real.log_exp, abs_of_pos hx]
    ring

/-- C9: `symlog` and `symexp` are mutually inverse bijections on the reals. -/
theorem symlog_symexp_inverse :
    (∀ x : ℝ, symexp (symlog x) = x) ∧ (∀ x : ℝ, symlog (symexp x) = x) ∧
    Function.Bijective symlog ∧ Function.Bijective symexp :=
  ⟨symexp_symlog, symlog_symexp,
    Function.bijective_iff_has_inverse.mpr ⟨symexp, symexp_symlog, symlog_symexp⟩,
    Function.bijective_iff_has_inverse.mpr ⟨symlog, symlog_symexp, symexp_symlog⟩⟩

theorem qclip_mem (x lo hi : ℚ) (h : lo ≤ hi) :
    lo ≤ qclip x lo hi ∧ qclip x lo hi ≤ hi :=
  ⟨le_min (le_max_right x lo) h, min_le_right _ _⟩

theorem qclip_eq_self (x lo hi : ℚ) (h1 : lo ≤ x) (h2 : x ≤ hi) : qclip x lo hi = x := by
  rw [qclip, max_eq_left h1, min_eq_left h2]

theorem qclip_eq_hi (x lo hi : ℚ) (hx : hi ≤ x) (h : lo ≤ hi) : qclip x lo hi = hi := by
  rw [qclip, max_eq_left (le_trans h hx), min_eq_right hx]

/-- C3: mixed-precision loss scaling of the `Optimizer`.  On a non-finite
gradient the scale is halved (clamped below by 1e-4), the good-step counter
resets and the parameter update is skipped (via `apply_if_finite`); after
1000 consecutive finite steps the scale doubles (clamped above by 1e4) and
the counter resets; otherwise the scale is kept and the counter increments;
and the resulting scale always lies in `[1e-4, 1e4]`. -/
theorem updateScale_spec (grads : List (Option ℚ)) (s : ScaleState)
    (hlo : 1 / 10000 ≤ s.gradScale) (hhi : s.gradScale ≤ 10000) :
    (allFinite grads = false →
      (updateScale grads s).1.gradScale = max (1 / 10000) (s.gradScale / 2) ∧
      (updateScale grads s).1.goodSteps = 0 ∧
      (∀ params updates : List ℚ,
        applyIfFinite (allFinite grads) params updates = params)) ∧
    (allFinite grads = true → 1000 ≤ s.goodSteps →
      (updateScale grads s).1.gradScale = min (s.gradScale * 2) 10000 ∧
      (updateScale grads s).1.goodSteps = 0) ∧
    (allFinite grads = true → s.goodSteps < 1000 →
      (updateScale grads s).1.gradScale = s.gradScale ∧
      (updateScale grads s).1.goodSteps = s.goodSteps + 1) ∧
    (1 / 10000 ≤ (updateScale grads s).1.gradScale ∧
      (updateScale grads s).1.gradScale ≤ 10000) := by
  refine ⟨?_, ?_, ?_, ?_⟩
  · intro hfin
    have hq : (updateScale grads s).1.gradScale =
        qclip (s.gradScale / 2) (1 / 10000) 10000 := by
      simp [updateScale, hfin, b2q]
    have hg : (updateScale grads s).1.goodSteps = 0 := by
      simp [updateScale, hfin]
    refine ⟨?_, hg, fun params updates => by simp [applyIfFinite, hfin]⟩
    rw [hq, qclip, max_comm]
    exact min_eq_left (max_le (by norm_num) (by linarith))
  · intro hfin hgs
    have hd1 : decide (s.goodSteps < 1000) = false := decide_eq_false (not_lt.mpr hgs)
    have hd2 : decide (1000 ≤ s.goodSteps) = true := decide_eq_true hgs
    have hq : (updateScale grads s).1.gradScale =
        qclip (s.gradScale * 2) (1 / 10000) 10000 := by
      simp [updateScale, hfin, hd1, hd2, b2q]
    have hg : (updateScale grads s).1.goodSteps = 0 := by
      simp [updateScale, hfin, hd1]
    refine ⟨?_, hg⟩
    rw [hq, qclip, max_eq_left (by linarith : (1 : ℚ) / 10000 ≤ s.gradScale * 2)]
  · intro hfin hgs
    have hd1 : decide (s.goodSteps < 1000) = true := decide_eq_true hgs
    have hd2 : decide (1000 ≤ s.goodSteps) = false := decide_eq_false (not_le.mpr hgs)
    have hq : (updateScale grads s).1.gradScale =
        qclip s.gradScale (1 / 10000) 10000 := by
      simp [updateScale, hfin, hd1, hd2, b2q]
    have hg : (updateScale grads s).1.goodSteps = s.goodSteps + 1 := by
      simp [updateScale, hfin, hd1]
    exact ⟨by rw [hq, qclip_eq_self _ _ _ hlo hhi], hg⟩
  · exact qclip_mem _ (1 / 10000) 10000 (by norm_num)

/-- Witness for C3: a halved, a doubled and a kept scale at concrete states. -/
theorem updateScale_spec_witness :
    (updateScale [none] ⟨5, 100⟩).1.gradScale = 50 ∧
    (updateScale [none] ⟨5, 100⟩).1.goodSteps = 0 ∧
    applyIfFinite (allFinite [none]) [7] [1] = [7] ∧
    (updateScale [some 1] ⟨1000, 100⟩).1.gradScale = 200 ∧
    (updateScale [some 1] ⟨1000, 100⟩).1.goodSteps = 0 ∧
    (updateScale [some 1] ⟨5, 100⟩).1.gradScale = 100 ∧
    (updateScale [some 1] ⟨5, 100⟩).1.goodSteps = 6 := by
  have h1 := updateScale_spec [none] ⟨5, 100⟩ (by norm_num) (by norm_num)
  have h2 := updateScale_spec [some 1] ⟨1000, 100⟩ (by norm_num) (by norm_num)
  have h3 := updateScale_spec [some 1] ⟨5, 100⟩ (by norm_num) (by norm_num)
  refine ⟨?_, (h1.1 rfl).2.1, (h1.1 rfl).2.2 [7] [1], ?_, (h2.2.1 rfl (by norm_num)).2,
    (h3.2.2.1 rfl (by norm_num)).1, (h3.2.2.1 rfl (by norm_num)).2⟩
  · rw [(h1.1 rfl).1]; norm_num
  · rw [(h2.2.1 rfl (by norm_num)).1]; norm_num

/-- C4 counterexample: the claim states the step counter is incremented on
every invocation, including those whose gradient global norm is non-finite;
at a non-finite gradient the code leaves the counter unchanged. -/
theorem stepAfterCall_counterexample :
    stepAfterCall [none] 5 = 5 ∧ ¬ stepAfterCall [none] 5 = 5 + 1 := by
  constructor <;> decide

/-- C4 (amended): the step counter is incremented exactly on invocations whose
gradient global norm is finite; when it is non-finite, the parameter update is
skipped and the step is not counted either. -/
theorem stepAfterCall_finite_only (grads : List (Option ℚ)) (step : ℤ) :
    (allFinite grads = true → stepAfterCall grads step = step + 1) ∧
    (allFinite grads = false → stepAfterCall grads step = step ∧
      (∀ params updates : List ℚ,
        applyIfFinite (allFinite grads) params updates = params)) := by
  constructor
  · intro h; simp [stepAfterCall, h]
  · intro h
    exact ⟨by simp [stepAfterCall, h], fun params updates => by simp [applyIfFinite, h]⟩

/-- Witness for C4 (amended) at a finite and a non-finite gradient. -/
theorem stepAfterCall_finite_only_witness :
    stepAfterCall [some 2] 7 = 7 + 1 ∧ stepAfterCall [none] 7 = 7 :=
  ⟨(stepAfterCall_finite_only [some 2] 7).1 rfl,
   ((stepAfterCall_finite_only [none] 7).2 rfl).1⟩

theorem polyakAveraging_one (src dst : List ℚ) (h : src.length = dst.length) :
    polyakAveraging src dst 1 = src := by
  induction src generalizing dst with
  | nil => rfl
  | cons x xs ih =>
    cases dst with
    | nil => simp at h
    | cons y ys =>
      simp only [polyakAveraging, List.zipWith_cons_cons] at ih ⊢
      rw [ih ys (by simpa using h)]
      norm_num

theorem polyakAveraging_zero (src dst : List ℚ) (h : src.length = dst.length) :
    polyakAveraging src dst 0 = dst := by
  induction src generalizing dst with
  | nil =>
    cases dst with
    | nil => rfl
    | cons y ys => simp at h
  | cons x xs ih =>
    cases dst with
    | nil => simp at h
    | cons y ys =>
      simp only [polyakAveraging, List.zipWith_cons_cons] at ih ⊢
      rw [ih ys (by simpa using h)]
      norm_num

/-- C5: `SlowUpdater.__call__` forces a full copy on the first call
(`mix = 1` regardless of the configured fraction), blends by the fraction on
later calls whose counter is a multiple of the period, leaves the destination
unchanged otherwise (`mix = 0`), and always advances the counter by one. -/
theorem slowUpdate_spec (fraction : ℚ) (period updates : ℕ) (src dst : List ℚ)
    (hf0 : 0 ≤ fraction) (hf1 : fraction ≤ 1) (hlen : src.length = dst.length) :
    (updates = 0 → slowMix fraction period updates = 1 ∧
      (slowUpdate fraction period updates src dst).1 = src) ∧
    (updates ≠ 0 → updates % period = 0 →
      slowMix fraction period updates = fraction ∧
      (slowUpdate fraction period updates src dst).1 =
        List.zipWith (fun s d => fraction * s + (1 - fraction) * d) src dst) ∧
    (updates % period ≠ 0 → slowMix fraction period updates = 0 ∧
      (slowUpdate fraction period updates src dst).1 = dst) ∧
    (slowUpdate fraction period updates src dst).2 = updates + 1 := by
  refine ⟨?_, ?_, ?_, rfl⟩
  · intro h0
    have hmix : slowMix fraction period updates = 1 := by
      subst h0
      simp only [slowMix, Nat.zero_mod, beq_self_eq_true, b2q, if_true]
      rw [qclip_eq_hi _ _ _ (by linarith) (by norm_num)]
    refine ⟨hmix, ?_⟩
    show polyakAveraging src dst (slowMix fraction period updates) = src
    rw [hmix]
    exact polyakAveraging_one src dst hlen
  · intro hne hmod
    have hb1 : (updates == 0) = false := beq_eq_false_iff_ne.mpr hne
    have hb2 : (updates % period == 0) = true := beq_iff_eq.mpr hmod
    have hmix : slowMix fraction period updates = fraction := by
      simp only [slowMix, b2q, hb1, hb2, Bool.false_eq_true, if_true, if_false]
      rw [qclip_eq_self _ _ _ (by linarith) (by linarith)]
      ring
    refine ⟨hmix, ?_⟩
    show polyakAveraging src dst (slowMix fraction period updates) = _
    rw [hmix]
    rfl
  · intro hmod
    have hne : updates ≠ 0 := by
      intro h0; subst h0; exact hmod (Nat.zero_mod period)
    have hb1 : (updates == 0) = false := beq_eq_false_iff_ne.mpr hne
    have hb2 : (updates % period == 0) = false := beq_eq_false_iff_ne.mpr hmod
    have hmix : slowMix fraction period updates = 0 := by
      simp only [slowMix, b2q, hb1, hb2, Bool.false_eq_true, if_false]
      rw [qclip_eq_self _ _ _ (by norm_num) (by norm_num)]
      ring
    refine ⟨hmix, ?_⟩
    show polyakAveraging src dst (slowMix fraction period updates) = dst
    rw [hmix]
    exact polyakAveraging_zero src dst hlen

/-- Witness for C5 with fraction 1/2 and period 2 at counters 0, 2 and 1. -/
theorem slowUpdate_spec_witness :
    slowMix (1/2) 2 0 = 1 ∧ (slowUpdate (1/2) 2 0 [4] [8]).1 = [4] ∧
    slowMix (1/2) 2 2 = 1/2 ∧
    (slowUpdate (1/2) 2 2 [4] [8]).1 =
      List.zipWith (fun s d => (1/2 : ℚ) * s + (1 - 1/2) * d) [4] [8] ∧
    slowMix (1/2) 2 1 = 0 ∧ (slowUpdate (1/2) 2 1 [4] [8]).1 = [8] ∧
    (slowUpdate (1/2) 2 1 [4] [8]).2 = 2 := by
  have h0 := slowUpdate_spec (1/2) 2 0 [4] [8] (by norm_num) (by norm_num) rfl
  have h2 := slowUpdate_spec (1/2) 2 2 [4] [8] (by norm_num) (by norm_num) rfl
  have h1 := slowUpdate_spec (1/2) 2 1 [4] [8] (by norm_num) (by norm_num) rfl
  exact ⟨(h0.1 rfl).1, (h0.1 rfl).2, (h2.2.1 (by norm_num) rfl).1,
    (h2.2.1 (by norm_num) rfl).2, (h1.2.2.1 (by norm_num)).1, (h1.2.2.1 (by norm_num)).2,
    h1.2.2.2⟩

theorem lookup_map_modify_key (f : ℚ → ℚ) (key : String) (grads : List (String × ℚ)) :
    (grads.map (fun kv => if kv.1 = key then (kv.1, f kv.2) else kv)).lookup key =
      (grads.lookup key).map f := by
  induction grads with
  | nil => rfl
  | cons kv rest ih =>
    obtain ⟨k1, v⟩ := kv
    by_cases hk : k1 = key
    · subst hk
      simp only [List.map_cons, if_pos rfl]
      simp [List.lookup, ih]
    · have hb : (key == k1) = false := beq_eq_false_iff_ne.mpr (Ne.symm hk)
      simp only [List.map_cons, if_neg hk]
      simp [List.lookup, hb, ih]

theorem lookup_map_modify_other (f : ℚ → ℚ) (key k : String) (hk : k ≠ key)
    (grads : List (String × ℚ)) :
    (grads.map (fun kv => if kv.1 = key then (kv.1, f kv.2) else kv)).lookup k =
      grads.lookup k := by
  induction grads with
  | nil => rfl
  | cons kv rest ih =>
    obtain ⟨k1, v⟩ := kv
    by_cases h1 : k1 = key
    · subst h1
      have hb : (k == k1) = false := beq_eq_false_iff_ne.mpr hk
      simp only [List.map_cons, if_pos rfl]
      simp [List.lookup, hb, ih]
    · simp only [List.map_cons, if_neg h1]
      by_cases h2 : k = k1
      · simp [List.lookup, h2]
      · have hb : (k == k1) = false := beq_eq_false_iff_ne.mpr h2
        simp [List.lookup, hb, ih]

theorem lookup_none_of_not_mem (key : String) (grads : List (String × ℚ))
    (h : key ∉ grads.map Prod.fst) : grads.lookup key = none := by
  induction grads with
  | nil => rfl
  | cons kv rest ih =>
    obtain ⟨k1, v⟩ := kv
    simp only [List.map_cons, List.mem_cons] at h
    push_neg at h
    have hb : (key == k1) = false := beq_eq_false_iff_ne.mpr h.1
    simp [List.lookup, hb, ih h.2]

/-- C8: the prototype-freezing carve-out of `Optimizer.__call__`: below the
freeze threshold the gradient entry at `agent/wm/rssm/prototypes` is replaced
by zero (multiplied by 0) before the update is applied, at or above the
threshold all entries pass through unmodified, and entries under other keys
are never affected. -/
theorem freezeProtos_spec (step freeze : ℤ) (grads : List (String × ℚ)) :
    (freeze ≤ step → freezeProtos step freeze grads = grads) ∧
    (step < freeze → (freezeProtos step freeze grads).lookup protoKey =
      (grads.lookup protoKey).map (fun g => g * 0)) ∧
    (∀ k, k ≠ protoKey →
      (freezeProtos step freeze grads).lookup k = grads.lookup k) ∧
    (step < freeze → ∀ g, grads.lookup protoKey = some g →
      (freezeProtos step freeze grads).lookup protoKey = some 0) := by
  have hzero : step < freeze → (freezeProtos step freeze grads).lookup protoKey =
      (grads.lookup protoKey).map (fun g => g * 0) := by
    intro h
    by_cases hmem : protoKey ∈ grads.map Prod.fst
    · simp only [freezeProtos, if_pos hmem, if_pos h]
      exact lookup_map_modify_key (fun g => g * 0) protoKey grads
    · rw [freezeProtos, if_neg hmem, lookup_none_of_not_mem protoKey grads hmem]
      rfl
  refine ⟨?_, hzero, ?_, ?_⟩
  · intro h
    have hnot : ¬ step < freeze := not_lt.mpr h
    by_cases hmem : protoKey ∈ grads.map Prod.fst
    · simp only [freezeProtos, if_pos hmem, if_neg hnot]
      have he : ∀ kv : String × ℚ, (if kv.1 = protoKey then (kv.1, kv.2) else kv) = kv := by
        intro kv; split <;> rfl
      simp [he]
    · simp [freezeProtos, hmem]
  · intro k hk
    by_cases hmem : protoKey ∈ grads.map Prod.fst
    · simp only [freezeProtos, if_pos hmem]
      exact lookup_map_modify_other (fun g => if step < freeze then g * 0 else g)
        protoKey k hk grads
    · simp [freezeProtos, hmem]
  · intro h g hg
    rw [hzero h, hg]
    simp

/-- Witness for C8: a frozen and an unfrozen step on a concrete gradient
dictionary. -/
theorem freezeProtos_spec_witness :
    freezeProtos 10 10 [(protoKey, 3), ("w", 2)] = [(protoKey, 3), ("w", 2)] ∧
    (freezeProtos 5 10 [(protoKey, 3), ("w", 2)]).lookup protoKey = some 0 ∧
    (freezeProtos 5 10 [(protoKey, 3), ("w", 2)]).lookup "w" = some 2 := by
  have ha := freezeProtos_spec 10 10 [(protoKey, 3), ("w", 2)]
  have hb := freezeProtos_spec 5 10 [(protoKey, 3), ("w", 2)]
  refine ⟨ha.1 (by norm_num), ?_, ?_⟩
  · exact hb.2.2.2 (by norm_num) 3 rfl
  · rw [hb.2.2.1 "w" (by decide)]
    rfl

theorem njScan_snd_eq_scanUnrolled {C I : Type} (fn : C → I → C) (inputs : List I)
    (start : C) :
    (njScan (fun carry inp => (fn carry inp, fn carry inp)) start inputs).2 =
      scanUnrolled fn start inputs := by
  induction inputs generalizing start with
  | nil => rfl
  | cons i is ih => simp [njScan, scanUnrolled, ih]

theorem scanUnrolled_length {C I : Type} (fn : C → I → C) (inputs : List I)
    (start : C) : (scanUnrolled fn start inputs).length = inputs.length := by
  induction inputs generalizing start with
  | nil => rfl
  | cons i is ih => simp [scanUnrolled, ih]

theorem scan_length {C I : Type} (fn : C → I → C) (inputs : List I) (start : C)
    (unroll : Bool) : (scan fn inputs start unroll).length = inputs.length := by
  cases unroll <;>
    simp [scan, njScan_snd_eq_scanUnrolled, scanUnrolled_length]

theorem cumprod_length (l : List ℚ) : (cumprod l).length = l.length := by
  induction l with
  | nil => rfl
  | cons x xs ih => simp [cumprod, ih]

theorem cumprod_getD (l : List ℚ) (t : ℕ) (ht : t < l.length) :
    (cumprod l).getD t 0 = (l.take (t + 1)).prod := by
  induction l generalizing t with
  | nil => simp at ht
  | cons x xs ih =>
    cases t with
    | zero => simp [cumprod]
    | succ n =>
      simp only [cumprod, List.getD_cons_succ, List.take_succ_cons, List.prod_cons]
      rw [getD_map_lt (fun y => x * y) (cumprod xs) n
        (by rw [cumprod_length]; simpa using ht) 0 0]
      rw [ih n (by simpa using ht)]

theorem prod_map_const_mul (c : ℚ) (l : List ℚ) :
    (l.map (fun x => c * x)).prod = c ^ l.length * l.prod := by
  induction l with
  | nil => simp
  | cons x xs ih =>
    simp only [List.map_cons, List.prod_cons, List.length_cons, ih, pow_succ]
    ring

/-- C7: `jaxutils.scan` returns identical stacked outputs for the eager
unrolled Python loop (`unroll=True`) and the lazy `nj.scan`
(`unroll=False`); consequently `WorldModel.imagine` produces identical
trajectories for either setting of `imag_unroll`. -/
theorem scan_unroll_equivalent :
    (∀ (C I : Type) (fn : C → I → C) (inputs : List I) (start : C),
      scan fn inputs start true = scan fn inputs start false) ∧
    (∀ (S A : Type) (img_step : S → A → S) (policy : S → A) (contMode : S → ℚ)
      (isTerminal : ℚ) (start0 : S) (horizon : ℕ) (horizonCfg : ℚ),
      imagine img_step policy contMode isTerminal start0 horizon horizonCfg true =
        imagine img_step policy contMode isTerminal start0 horizon horizonCfg false) := by
  have hscan : ∀ (C I : Type) (fn : C → I → C) (inputs : List I) (start : C),
      scan fn inputs start true = scan fn inputs start false := by
    intro C I fn inputs start
    simp [scan, njScan_snd_eq_scanUnrolled]
  refine ⟨hscan, ?_⟩
  intro S A img_step policy contMode isTerminal start0 horizon horizonCfg
  simp only [imagine, hscan]

/-- C6: `WorldModel.imagine` returns a trajectory of `horizon + 1` steps
including the real starting step; its continuation signal satisfies
`cont[0] = 1 - is_terminal` and, for `t ≥ 1`, `cont[t]` is the mode of the
`cont` head on the imagined state; and its survival weight satisfies
`weight[t] = (1 - 1/horizonCfg)^t * ∏ cont[0..t]`. -/
theorem imagine_spec {S A : Type} (img_step : S → A → S) (policy : S → A)
    (contMode : S → ℚ) (isTerminal : ℚ) (start0 : S) (horizon : ℕ)
    (horizonCfg : ℚ) (unroll : Bool) (hd : 1 - 1 / horizonCfg ≠ 0) :
    (imagine img_step policy contMode isTerminal start0 horizon horizonCfg
      unroll).states.length = horizon + 1 ∧
    (imagine img_step policy contMode isTerminal start0 horizon horizonCfg
      unroll).cont.length = horizon + 1 ∧
    (imagine img_step policy contMode isTerminal start0 horizon horizonCfg
      unroll).cont.getD 0 0 = 1 - isTerminal ∧
    (∀ t, t < horizon →
      (imagine img_step policy contMode isTerminal start0 horizon horizonCfg
        unroll).cont.getD (t + 1) 0 =
      contMode (((imagine img_step policy contMode isTerminal start0 horizon
        horizonCfg unroll).states.getD (t + 1) (start0, policy start0)).1)) ∧
    (∀ t, t ≤ horizon →
      (imagine img_step policy contMode isTerminal start0 horizon horizonCfg
        unroll).weight.getD t 0 =
      (1 - 1 / horizonCfg) ^ t *
        ((imagine img_step policy contMode isTerminal start0 horizon horizonCfg
          unroll).cont.take (t + 1)).prod) := by
  have hstates : (imagine img_step policy contMode isTerminal start0 horizon
      horizonCfg unroll).states =
      (start0, policy start0) ::
        scan (fun prev _ => (img_step prev.1 prev.2, policy (img_step prev.1 prev.2)))
          (List.range horizon) (start0, policy start0) unroll := rfl
  have hcont : (imagine img_step policy contMode isTerminal start0 horizon
      horizonCfg unroll).cont =
      (1 - isTerminal) ::
        (((imagine img_step policy contMode isTerminal start0 horizon horizonCfg
          unroll).states.map (fun p => contMode p.1)).drop 1) := rfl
  have hweight : (imagine img_step policy contMode isTerminal start0 horizon
      horizonCfg unroll).weight =
      (cumprod ((imagine img_step policy contMode isTerminal start0 horizon
        horizonCfg unroll).cont.map (fun c => (1 - 1 / horizonCfg) * c))).map
        (fun w => w / (1 - 1 / horizonCfg)) := rfl
  have hslen : (imagine img_step policy contMode isTerminal start0 horizon
      horizonCfg unroll).states.length = horizon + 1 := by
    rw [hstates, List.length_cons, scan_length, List.length_range]
  have hclen : (imagine img_step policy contMode isTerminal start0 horizon
      horizonCfg unroll).cont.length = horizon + 1 := by
    rw [hcont, List.length_cons, List.length_drop, List.length_map, hslen]
    omega
  refine ⟨hslen, hclen, by rw [hcont]; rfl, ?_, ?_⟩
  · intro t ht
    rw [hcont, List.getD_cons_succ, getD_drop_one,
      getD_map_lt (fun p => contMode p.1) _ (t + 1) (by rw [hslen]; omega)
        (start0, policy start0) 0]
  · intro t ht
    have hlt : t < (cumprod ((imagine img_step policy contMode isTerminal start0
        horizon horizonCfg unroll).cont.map (fun c => (1 - 1 / horizonCfg) * c))).length := by
      rw [cumprod_length, List.length_map, hclen]; omega
    rw [hweight, getD_map_lt _ _ t hlt 0 0, cumprod_getD _ t (by
      rw [List.length_map, hclen]; omega)]
    rw [(List.map_take (fun c => (1 - 1 / horizonCfg) * c)
      ((imagine img_step policy contMode isTerminal start0 horizon horizonCfg
        unroll).cont) (t + 1)).symm]
    rw [prod_map_const_mul]
    rw [List.length_take, min_eq_left (by rw [hclen]; omega)]
    rw [pow_succ]
    field_simp
    ring

/-- Witness for C6 at a concrete two-step rollout over a toy scalar state. -/
theorem imagine_spec_witness :
    (imagine (fun (s a : ℚ) => s + a) (fun _ => (1 : ℚ)) (fun s => s) 0 0 2 2
      true).states.length = 2 + 1 ∧
    (imagine (fun (s a : ℚ) => s + a) (fun _ => (1 : ℚ)) (fun s => s) 0 0 2 2
      true).cont.getD 0 0 = 1 - 0 ∧
    (imagine (fun (s a : ℚ) => s + a) (fun _ => (1 : ℚ)) (fun s => s) 0 0 2 2
      true).cont.getD 1 0 =
      ((imagine (fun (s a : ℚ) => s + a) (fun _ => (1 : ℚ)) (fun s => s) 0 0 2 2
        true).states.getD 1 (0, 1)).1 ∧
    (imagine (fun (s a : ℚ) => s + a) (fun _ => (1 : ℚ)) (fun s => s) 0 0 2 2
      true).weight.getD 2 0 =
      (1 - 1 / 2 : ℚ) ^ 2 *
        ((imagine (fun (s a : ℚ) => s + a) (fun _ => (1 : ℚ)) (fun s => s) 0 0 2 2
          true).cont.take 3).prod := by
  have h := imagine_spec (fun (s a : ℚ) => s + a) (fun _ => (1 : ℚ)) (fun s => s)
    0 0 2 2 true (by norm_num)
  exact ⟨h.1, h.2.2.1, h.2.2.2.1 0 (by norm_num), h.2.2.2.2 2 (by norm_num)⟩

/-- C10: for every implementation other than `off`, with bound `max > 0` and
a nonnegative `eps`, the scale component returned by `Moments.stats` is at
least `1/max` and strictly positive — every branch applies either
`maximum(1/max, ...)` or a variance floor of `1/max^2` under the square root —
so the return normalization `(ret - offset) / invscale` of
`ImagActorCritic.loss` never divides by zero. -/
theorem momentsStats_scale_pos (impl : MomentsImpl) (decay maxv eps : ℝ)
    (s : MomentsState) (himpl : impl ≠ MomentsImpl.off) (hmax : 0 < maxv)
    (heps : 0 ≤ eps) :
    1 / maxv ≤ (momentsStats impl decay maxv eps s).2 ∧
    0 < (momentsStats impl decay maxv eps s).2 ∧
    (momentsStats impl decay maxv eps s).2 ≠ 0 := by
  have hpos : 0 < 1 / maxv := by positivity
  have key : 1 / maxv ≤ (momentsStats impl decay maxv eps s).2 := by
    cases impl with
    | off => exact absurd rfl himpl
    | mean_std =>
      show 1 / maxv ≤
        Real.sqrt (max (s.sqrs / (1 - decay ^ s.step) - s.mean ^ 2) (1 / maxv ^ 2) + eps)
      have hsq : (1 / maxv) ^ 2 = 1 / maxv ^ 2 := by
        field_simp
      have h1 : (1 / maxv) ^ 2 ≤
          max (s.sqrs / (1 - decay ^ s.step) - s.mean ^ 2) (1 / maxv ^ 2) + eps := by
        rw [hsq]
        have := le_max_right (s.sqrs / (1 - decay ^ s.step) - s.mean ^ 2) (1 / maxv ^ 2)
        linarith
      calc 1 / maxv = Real.sqrt ((1 / maxv) ^ 2) := (Real.sqrt_sq hpos.le).symm
        _ ≤ _ := Real.sqrt_le_sqrt h1
    | min_max => exact le_max_left _ _
    | perc_ema => exact le_max_left _ _
    | perc_ema_corr => exact le_max_left _ _
    | mean_mag => exact le_max_left _ _
    | max_mag => exact le_max_left _ _
  exact ⟨key, lt_of_lt_of_le hpos key, ne_of_gt (lt_of_lt_of_le hpos key)⟩

/-- Witness for C10 at a concrete `min_max` instance. -/
theorem momentsStats_scale_pos_witness :
    1 / 2 ≤ (momentsStats MomentsImpl.min_max (99/100) 2 0 ⟨0, 0, 0, 0, 0, 0⟩).2 ∧
    0 < (momentsStats MomentsImpl.min_max (99/100) 2 0 ⟨0, 0, 0, 0, 0, 0⟩).2 ∧
    (momentsStats MomentsImpl.min_max (99/100) 2 0 ⟨0, 0, 0, 0, 0, 0⟩).2 ≠ 0 :=
  momentsStats_scale_pos MomentsImpl.min_max (99/100) 2 0 ⟨0, 0, 0, 0, 0, 0⟩
    (by decide) (by norm_num) (by norm_num)
